import Mathlib

/-!
Verification of the `pds` embedded audio player (gbPagano/pds) against its
natural-language specification.

The development shallowly embeds the relevant parts of `src/audio.rs`:

* the IEEE-754 binary32 (`f32`) arithmetic used by the software gain stage
  (`(sample as f32) * ((volume as f32) / 100.0)` followed by `as i16`),
  modelled exactly over `ℚ` with round-to-nearest-even.  All values occurring
  in the gain stage lie well inside the normal range of `f32` (magnitudes
  between `2^-7` and `2^16`), so neither subnormals, nor overflow, nor NaN
  can occur, and the normal-range rounding model below is exact;
* the volume handler task (`volume_handler_task`);
* the audio feed engine loop (`audio_task`) and `load_track`, as a pure
  cycle function over an explicit engine state, with the DMA transfer
  abstracted by its available-space query and the list of pushed bytes,
  and the wall-clock log throttle abstracted by a boolean input.

The track catalog type `Musics` is referenced by `src/audio.rs` but its
definition is not part of the sources at hand; it is modelled from the
specification (see `musicsNext` below).
-/

/-! ## Round to nearest, ties to even -/

/-- Round a rational to the nearest integer, ties going to the even
integer.  This is the rounding used by IEEE-754 arithmetic. -/
def roundNE (q : ℚ) : ℤ :=
  if q - ⌊q⌋ < 1/2 then ⌊q⌋
  else if 1/2 < q - ⌊q⌋ then ⌊q⌋ + 1
  else if Even ⌊q⌋ then ⌊q⌋ else ⌊q⌋ + 1

theorem floor_le_roundNE (q : ℚ) : ⌊q⌋ ≤ roundNE q := by
  unfold roundNE; split_ifs <;> omega

theorem roundNE_le_floor_add_one (q : ℚ) : roundNE q ≤ ⌊q⌋ + 1 := by
  unfold roundNE; split_ifs <;> omega

theorem roundNE_intCast (n : ℤ) : roundNE (n : ℚ) = n := by
  unfold roundNE
  rw [Int.floor_intCast]
  norm_num

theorem abs_roundNE_sub_le (q : ℚ) : |(roundNE q : ℚ) - q| ≤ 1/2 := by
  have h0 : (⌊q⌋ : ℚ) ≤ q := Int.floor_le q
  have h1 : q < ⌊q⌋ + 1 := Int.lt_floor_add_one q
  unfold roundNE
  split_ifs with hA hB hC <;> rw [abs_le] <;> push_cast <;> constructor <;> linarith

theorem roundNE_mono {x y : ℚ} (h : x ≤ y) : roundNE x ≤ roundNE y := by
  rcases lt_or_le ⌊x⌋ ⌊y⌋ with hf | hf
  · calc roundNE x ≤ ⌊x⌋ + 1 := roundNE_le_floor_add_one x
      _ ≤ ⌊y⌋ := by omega
      _ ≤ roundNE y := floor_le_roundNE y
  · have hfe : ⌊x⌋ = ⌊y⌋ := le_antisymm (Int.floor_mono h) hf
    unfold roundNE
    rw [hfe]
    split_ifs <;> first | omega | (exfalso; linarith)

/-! ## Exact model of `f32` rounding in the normal range -/

/-- Value of rounding a positive rational to `f32` precision
(24 significand bits): the significand is scaled into `[2^23, 2^24]`
and rounded to the nearest integer, ties to even.  Exact for positive
arguments in the normal, non-overflowing range of `f32`. -/
def fl32Pos (q : ℚ) : ℚ :=
  (roundNE (q * 2 ^ ((23 : ℤ) - Int.log 2 q)) : ℚ) * 2 ^ (Int.log 2 q - 23)

/-- Result of rounding a rational to `f32`, exact in the normal range;
zero and negative arguments are handled by symmetry of the rounding. -/
def fl32 (q : ℚ) : ℚ :=
  if 0 < q then fl32Pos q else if q < 0 then -fl32Pos (-q) else 0

theorem Int.log_eq_of_bounds {q : ℚ} {e : ℤ} (h0 : 0 < q) (h1 : 2 ^ e ≤ q)
    (h2 : q < 2 ^ (e + 1)) : Int.log 2 q = e :=
  le_antisymm (Int.lt_add_one_iff.mp ((Int.lt_zpow_iff_log_lt (by norm_num) h0).mp h2))
    ((Int.zpow_le_iff_le_log (by norm_num) h0).mp h1)

theorem fl32Pos_sub_le {q : ℚ} (hq : 0 < q) :
    |fl32Pos q - q| ≤ 2 ^ (Int.log 2 q - 24) := by
  set e := Int.log 2 q with he
  have hpow : (2:ℚ) ^ ((23:ℤ) - e) * 2 ^ (e - 23) = 1 := by
    rw [← zpow_add₀ (two_ne_zero (α := ℚ))]; norm_num
  have key : fl32Pos q - q
      = ((roundNE (q * 2 ^ ((23:ℤ) - e)) : ℚ) - q * 2 ^ ((23:ℤ) - e)) * 2 ^ (e - 23) := by
    rw [fl32Pos, ← he, sub_mul, mul_assoc, hpow, mul_one]
  rw [key, abs_mul, abs_of_pos (show (0:ℚ) < 2 ^ (e - 23) by positivity)]
  calc |(roundNE (q * 2 ^ ((23:ℤ) - e)) : ℚ) - q * 2 ^ ((23:ℤ) - e)| * 2 ^ (e - 23)
      ≤ (1/2) * 2 ^ (e - 23) := by
        exact mul_le_mul_of_nonneg_right (abs_roundNE_sub_le _) (by positivity)
    _ = 2 ^ (e - 24) := by
        rw [show (1:ℚ)/2 = 2 ^ (-1 : ℤ) by norm_num, ← zpow_add₀ (two_ne_zero (α := ℚ))]
        ring_nf

theorem fl32Pos_nonneg {q : ℚ} (hq : 0 < q) : 0 ≤ fl32Pos q := by
  unfold fl32Pos
  apply mul_nonneg _ (by positivity)
  have h1 : (0:ℤ) ≤ ⌊q * 2 ^ ((23:ℤ) - Int.log 2 q)⌋ :=
    Int.floor_nonneg.mpr (by positivity)
  exact_mod_cast h1.trans (floor_le_roundNE _)

theorem fl32Pos_le {q : ℚ} (hq : 0 < q) : fl32Pos q ≤ 2 ^ (Int.log 2 q + 1) := by
  set e := Int.log 2 q with he
  have hq2 : q < 2 ^ (e + 1) := Int.lt_zpow_succ_log_self (by norm_num) q
  have ht : q * 2 ^ ((23:ℤ) - e) < 2 ^ (24 : ℤ) := by
    calc q * 2 ^ ((23:ℤ) - e) < 2 ^ (e + 1) * 2 ^ ((23:ℤ) - e) := by
          exact mul_lt_mul_of_pos_right hq2 (by positivity)
      _ = 2 ^ (24 : ℤ) := by
          rw [← zpow_add₀ (two_ne_zero (α := ℚ))]; ring_nf
  have hr : roundNE (q * 2 ^ ((23:ℤ) - e)) ≤ 16777216 := by
    have hfl : ⌊q * 2 ^ ((23:ℤ) - e)⌋ < 16777216 := by
      rw [Int.floor_lt]
      calc q * 2 ^ ((23:ℤ) - e) < 2 ^ (24:ℤ) := ht
        _ = ((16777216 : ℤ) : ℚ) := by norm_num
    have := roundNE_le_floor_add_one (q * 2 ^ ((23:ℤ) - e))
    omega
  calc fl32Pos q ≤ (16777216 : ℚ) * 2 ^ (e - 23) := by
        unfold fl32Pos
        rw [← he]
        apply mul_le_mul_of_nonneg_right _ (by positivity)
        exact_mod_cast hr
    _ = 2 ^ (e + 1) := by
        rw [show ((16777216:ℚ) = 2 ^ (24 : ℤ)) by norm_num, ← zpow_add₀ (two_ne_zero (α := ℚ))]
        ring_nf

theorem le_fl32Pos {q : ℚ} (hq : 0 < q) : 2 ^ Int.log 2 q ≤ fl32Pos q := by
  set e := Int.log 2 q with he
  have hq1 : (2:ℚ) ^ e ≤ q := Int.zpow_log_le_self (by norm_num) hq
  have ht : (2 : ℚ) ^ (23 : ℤ) ≤ q * 2 ^ ((23:ℤ) - e) := by
    calc (2:ℚ) ^ (23 : ℤ) = 2 ^ e * 2 ^ ((23:ℤ) - e) := by
          rw [← zpow_add₀ (two_ne_zero (α := ℚ))]; ring_nf
      _ ≤ q * 2 ^ ((23:ℤ) - e) := mul_le_mul_of_nonneg_right hq1 (by positivity)
  have hr : (8388608 : ℤ) ≤ roundNE (q * 2 ^ ((23:ℤ) - e)) := by
    have hfl : (8388608 : ℤ) ≤ ⌊q * 2 ^ ((23:ℤ) - e)⌋ := by
      rw [Int.le_floor]
      calc ((8388608 : ℤ) : ℚ) = 2 ^ (23 : ℤ) := by norm_num
        _ ≤ q * 2 ^ ((23:ℤ) - e) := ht
    exact hfl.trans (floor_le_roundNE _)
  calc (2:ℚ) ^ e = (8388608 : ℚ) * 2 ^ (e - 23) := by
        rw [show ((8388608:ℚ) = 2 ^ (23 : ℤ)) by norm_num, ← zpow_add₀ (two_ne_zero (α := ℚ))]
        ring_nf
    _ ≤ fl32Pos q := by
        unfold fl32Pos
        rw [← he]
        apply mul_le_mul_of_nonneg_right _ (by positivity)
        exact_mod_cast hr

theorem fl32Pos_mono {x y : ℚ} (hx : 0 < x) (hxy : x ≤ y) : fl32Pos x ≤ fl32Pos y := by
  have hy : 0 < y := hx.trans_le hxy
  have hlog : Int.log 2 x ≤ Int.log 2 y := Int.log_mono_right hx hxy
  rcases eq_or_lt_of_le hlog with heq | hlt
  · unfold fl32Pos
    rw [← heq]
    apply mul_le_mul_of_nonneg_right _ (by positivity)
    have : roundNE (x * 2 ^ ((23:ℤ) - Int.log 2 x)) ≤ roundNE (y * 2 ^ ((23:ℤ) - Int.log 2 x)) :=
      roundNE_mono (mul_le_mul_of_nonneg_right hxy (by positivity))
    exact_mod_cast this
  · calc fl32Pos x ≤ 2 ^ (Int.log 2 x + 1) := fl32Pos_le hx
      _ ≤ 2 ^ Int.log 2 y := zpow_le_zpow_right₀ (by norm_num) (by omega)
      _ ≤ fl32Pos y := le_fl32Pos hy

theorem fl32Pos_intCast {n : ℤ} (h0 : 0 < n) (h1 : n < 16777216) : fl32Pos (n : ℚ) = n := by
  have hq : (0:ℚ) < (n:ℚ) := by exact_mod_cast h0
  set e := Int.log 2 ((n:ℚ)) with he
  have he0 : 0 ≤ e := by
    rw [he]
    have h : (2:ℚ) ^ (0:ℤ) ≤ (n:ℚ) := by
      rw [zpow_zero]; exact_mod_cast h0
    exact (Int.zpow_le_iff_le_log (by norm_num) hq).mp h
  have he23 : e ≤ 23 := by
    have h : (n : ℚ) < 2 ^ (24 : ℤ) := by
      calc (n:ℚ) < ((16777216 : ℤ) : ℚ) := by exact_mod_cast h1
        _ = 2 ^ (24 : ℤ) := by norm_num
    have := (Int.lt_zpow_iff_log_lt (b := 2) (by norm_num) hq).mp h
    omega
  have hnn : (0:ℤ) ≤ (23:ℤ) - e := by omega
  have hpow : ((2 ^ ((23:ℤ) - e).toNat : ℤ) : ℚ) = 2 ^ ((23:ℤ) - e) := by
    push_cast
    rw [← zpow_natCast (2:ℚ) (((23:ℤ) - e).toNat), Int.toNat_of_nonneg hnn]
  have hint : ((n * 2 ^ ((23:ℤ) - e).toNat : ℤ) : ℚ) = (n:ℚ) * 2 ^ ((23:ℤ) - e) := by
    push_cast [← hpow]
    ring
  unfold fl32Pos
  rw [← he, ← hint, roundNE_intCast, hint, mul_assoc, ← zpow_add₀ (two_ne_zero (α := ℚ))]
  norm_num

theorem fl32_zero : fl32 0 = 0 := by simp [fl32]

theorem fl32_of_pos {q : ℚ} (hq : 0 < q) : fl32 q = fl32Pos q := by
  simp [fl32, hq]

theorem fl32_of_neg {q : ℚ} (hq : q < 0) : fl32 q = -fl32Pos (-q) := by
  simp [fl32, hq, asymm hq]

theorem fl32_neg (q : ℚ) : fl32 (-q) = -fl32 q := by
  rcases lt_trichotomy q 0 with h | h | h
  · rw [fl32_of_neg h, fl32_of_pos (by linarith), neg_neg]
  · simp [h, fl32_zero]
  · rw [fl32_of_pos h, fl32_of_neg (by linarith), neg_neg]

theorem fl32_nonneg {q : ℚ} (hq : 0 ≤ q) : 0 ≤ fl32 q := by
  rcases eq_or_lt_of_le hq with h | h
  · rw [← h, fl32_zero]
  · rw [fl32_of_pos h]; exact fl32Pos_nonneg h

theorem fl32_nonpos {q : ℚ} (hq : q ≤ 0) : fl32 q ≤ 0 := by
  rcases eq_or_lt_of_le hq with h | h
  · rw [h, fl32_zero]
  · rw [fl32_of_neg h]
    simp only [neg_nonpos]
    exact fl32Pos_nonneg (by linarith)

theorem fl32_intCast {n : ℤ} (h : |n| < 16777216) : fl32 (n : ℚ) = n := by
  rcases lt_trichotomy n 0 with hn | hn | hn
  · rw [fl32_of_neg (by exact_mod_cast hn)]
    rw [show (-(n:ℚ)) = (((-n) : ℤ) : ℚ) by push_cast; ring]
    rw [fl32Pos_intCast (by omega) (by rw [abs_of_neg hn] at h; omega)]
    push_cast
    ring
  · simp [hn, fl32_zero]
  · rw [fl32_of_pos (by exact_mod_cast hn)]
    exact fl32Pos_intCast hn (by rw [abs_of_pos hn] at h; omega)

theorem fl32_err (q : ℚ) : |fl32 q - q| ≤ |q| / 16777216 := by
  rcases lt_trichotomy q 0 with h | h | h
  · rw [fl32_of_neg h, abs_of_neg h]
    have key : |fl32Pos (-q) - (-q)| ≤ 2 ^ (Int.log 2 (-q) - 24) := fl32Pos_sub_le (by linarith)
    have hb : (2:ℚ) ^ (Int.log 2 (-q) - 24) ≤ (-q) / 16777216 := by
      have h1 : (2:ℚ) ^ Int.log 2 (-q) ≤ -q := Int.zpow_log_le_self (by norm_num) (by linarith)
      calc (2:ℚ) ^ (Int.log 2 (-q) - 24) = 2 ^ Int.log 2 (-q) * 2 ^ (-24 : ℤ) := by
            rw [← zpow_add₀ (two_ne_zero (α := ℚ))]; ring_nf
          _ ≤ (-q) * 2 ^ (-24 : ℤ) := mul_le_mul_of_nonneg_right h1 (by positivity)
          _ = (-q) / 16777216 := by
            rw [show ((2:ℚ) ^ (-24 : ℤ)) = 1/16777216 by norm_num]; ring
    calc |-fl32Pos (-q) - q| = |fl32Pos (-q) - (-q)| := by rw [← abs_neg]; ring_nf
      _ ≤ 2 ^ (Int.log 2 (-q) - 24) := key
      _ ≤ (-q) / 16777216 := hb
  · simp [h, fl32_zero]
  · rw [fl32_of_pos h, abs_of_pos h]
    have key : |fl32Pos q - q| ≤ 2 ^ (Int.log 2 q - 24) := fl32Pos_sub_le h
    have hb : (2:ℚ) ^ (Int.log 2 q - 24) ≤ q / 16777216 := by
      have h1 : (2:ℚ) ^ Int.log 2 q ≤ q := Int.zpow_log_le_self (by norm_num) h
      calc (2:ℚ) ^ (Int.log 2 q - 24) = 2 ^ Int.log 2 q * 2 ^ (-24 : ℤ) := by
            rw [← zpow_add₀ (two_ne_zero (α := ℚ))]; ring_nf
          _ ≤ q * 2 ^ (-24 : ℤ) := mul_le_mul_of_nonneg_right h1 (by positivity)
          _ = q / 16777216 := by
            rw [show ((2:ℚ) ^ (-24 : ℤ)) = 1/16777216 by norm_num]; ring
    exact key.trans hb

theorem fl32_mono {x y : ℚ} (h : x ≤ y) : fl32 x ≤ fl32 y := by
  rcases lt_trichotomy x 0 with hx | hx | hx
  · rcases lt_trichotomy y 0 with hy | hy | hy
    · rw [fl32_of_neg hx, fl32_of_neg hy, neg_le_neg_iff]
      exact fl32Pos_mono (by linarith) (by linarith)
    · rw [hy, fl32_zero]
      exact fl32_nonpos (le_of_lt hx)
    · exact (fl32_nonpos (le_of_lt hx)).trans (fl32_nonneg (le_of_lt hy))
  · subst hx
    rw [fl32_zero]
    exact fl32_nonneg h
  · rw [fl32_of_pos hx, fl32_of_pos (lt_of_lt_of_le hx h)]
    exact fl32Pos_mono hx h

theorem fl32_abs (q : ℚ) : |fl32 q| = fl32 |q| := by
  rcases lt_trichotomy q 0 with h | h | h
  · rw [fl32_of_neg h, abs_of_neg h, fl32_of_pos (by linarith), abs_neg,
      abs_of_nonneg (fl32Pos_nonneg (by linarith))]
  · simp [h, fl32_zero]
  · rw [fl32_of_pos h, abs_of_pos h, fl32_of_pos h,
      abs_of_nonneg (fl32Pos_nonneg h)]

/-! ## Gain stage (`src/audio.rs` lines 136-144)

The Rust code computes, per 16-bit little-endian sample:
```
let sample = i16::from_le_bytes([sample_bytes[0], sample_bytes[1]]);
let gain = (volume_level as f32) / 100.0;
let amplified_sample = ((sample as f32) * gain) as i16;
amplified[i*2..i*2+2].copy_from_slice(&amplified_sample.to_le_bytes());
```
`volume_level as f32` and `sample as f32` are exact (both magnitudes are
below `2^24`); the `f32` division and multiplication round to nearest
(ties to even); `as i16` truncates toward zero and saturates at the
`i16` bounds (and would map NaN to 0, but no NaN can arise here). -/

/-- Truncation toward zero, the integer-narrowing used by Rust `as` casts
from floats. -/
def ratTrunc (q : ℚ) : ℤ :=
  if 0 ≤ q then ⌊q⌋ else ⌈q⌉

/-- Saturation of an integer to the `i16` range, as performed by Rust
float-to-integer `as` casts. -/
def i16Clamp (n : ℤ) : ℤ :=
  max (-32768) (min 32767 n)

/-- The `f32` gain ratio `(volume_level as f32) / 100.0`. -/
def gain (volume : ℕ) : ℚ :=
  fl32 ((volume : ℚ) / 100)

/-- One sample through the software gain scaling:
`((sample as f32) * gain) as i16`. -/
def amplifiedSample (volume : ℕ) (s : ℤ) : ℤ :=
  i16Clamp (ratTrunc (fl32 ((s : ℚ) * gain volume)))

/-- Decoding of `i16::from_le_bytes [b0, b1]`. -/
def i16FromLeBytes (b0 b1 : ℕ) : ℤ :=
  if b0 % 256 + 256 * (b1 % 256) < 32768 then (b0 % 256 + 256 * (b1 % 256) : ℤ)
  else (b0 % 256 + 256 * (b1 % 256) : ℤ) - 65536

/-- Encoding of `i16::to_le_bytes`. -/
def i16ToLeBytes (a : ℤ) : List ℕ :=
  [(Int.emod a 65536).toNat % 256, (Int.emod a 65536).toNat / 256]

/-- The per-chunk gain loop: 16-bit samples are read pairwise from the
byte chunk, scaled, and written back little-endian.  A trailing odd byte
is not processed by `chunks_exact(2)`; the corresponding position of the
pushed `amplified` buffer keeps its zero initialization. -/
def gainChunkBytes (volume : ℕ) : List ℕ → List ℕ
  | b0 :: b1 :: rest =>
      i16ToLeBytes (amplifiedSample volume (i16FromLeBytes b0 b1))
        ++ gainChunkBytes volume rest
  | [_] => [0]
  | [] => []

theorem gainChunkBytes_length (volume : ℕ) :
    ∀ chunk : List ℕ, (gainChunkBytes volume chunk).length = chunk.length
  | [] => rfl
  | [_] => rfl
  | b0 :: b1 :: rest => by
      simp [gainChunkBytes, i16ToLeBytes, gainChunkBytes_length volume rest]

theorem ratTrunc_intCast (n : ℤ) : ratTrunc (n : ℚ) = n := by
  unfold ratTrunc
  split_ifs <;> simp

theorem abs_ratTrunc_le (q : ℚ) : |(ratTrunc q : ℚ)| ≤ |q| := by
  unfold ratTrunc
  split_ifs with h
  · rw [abs_of_nonneg h, abs_of_nonneg]
    · exact Int.floor_le q
    · exact_mod_cast Int.floor_nonneg.mpr h
  · push_neg at h
    rw [abs_of_neg h, abs_of_nonpos]
    · push_cast
      linarith [Int.le_ceil q]
    · exact_mod_cast Int.ceil_le.mpr (show q ≤ ((0:ℤ):ℚ) by push_cast; linarith)

theorem ratTrunc_mono {x y : ℚ} (h : x ≤ y) : ratTrunc x ≤ ratTrunc y := by
  unfold ratTrunc
  split_ifs with h1 h2 h2
  · exact Int.floor_mono h
  · linarith
  · calc ⌈x⌉ ≤ 0 := Int.ceil_le.mpr (show x ≤ ((0:ℤ):ℚ) by push_cast; linarith)
      _ ≤ ⌊y⌋ := Int.floor_nonneg.mpr h2
  · exact Int.ceil_mono h

theorem ratTrunc_le_add_one {x y : ℚ} (hxy : x ≤ y) (h : y ≤ x + 1) :
    ratTrunc y ≤ ratTrunc x + 1 := by
  unfold ratTrunc
  split_ifs with h1 h2 h2
  · have hf : ⌊y⌋ ≤ ⌊x + 1⌋ := Int.floor_mono h
    rw [Int.floor_add_one] at hf
    exact hf
  · push_neg at h2
    have hy1 : ⌊y⌋ < 1 := Int.floor_lt.mpr (by push_cast; linarith)
    have hx1 : (-1 : ℤ) ≤ ⌈x⌉ := by
      calc (-1 : ℤ) = ⌈((-1 : ℤ) : ℚ)⌉ := (Int.ceil_intCast _).symm
        _ ≤ ⌈x⌉ := Int.ceil_mono (by push_cast; linarith)
    omega
  · push_neg at h1
    linarith
  · have hc : ⌈y⌉ ≤ ⌈x + 1⌉ := Int.ceil_mono h
    rw [Int.ceil_add_one] at hc
    exact hc

theorem abs_ratTrunc_sub_le {x y : ℚ} (h : |x - y| ≤ 1) :
    |ratTrunc x - ratTrunc y| ≤ 1 := by
  rw [abs_le] at h
  rcases le_total x y with hxy | hxy
  · have h1 : ratTrunc x ≤ ratTrunc y := ratTrunc_mono hxy
    have h2 : ratTrunc y ≤ ratTrunc x + 1 := ratTrunc_le_add_one hxy (by linarith)
    rw [abs_le]
    omega
  · have h1 : ratTrunc y ≤ ratTrunc x := ratTrunc_mono hxy
    have h2 : ratTrunc x ≤ ratTrunc y + 1 := ratTrunc_le_add_one hxy (by linarith)
    rw [abs_le]
    omega

theorem i16Clamp_eq_self {n : ℤ} (h1 : -32768 ≤ n) (h2 : n ≤ 32767) : i16Clamp n = n := by
  unfold i16Clamp
  omega

theorem abs_i16Clamp_le (n : ℤ) : |i16Clamp n| ≤ |n| := by
  rcases le_total 0 n with h | h
  · rw [abs_of_nonneg h, abs_of_nonneg (show (0:ℤ) ≤ i16Clamp n by unfold i16Clamp; omega)]
    unfold i16Clamp
    omega
  · rw [abs_of_nonpos h, abs_of_nonpos (show i16Clamp n ≤ 0 by unfold i16Clamp; omega)]
    unfold i16Clamp
    omega

theorem gain_nonneg (v : ℕ) : 0 ≤ gain v :=
  fl32_nonneg (by positivity)

theorem gain_le_one {v : ℕ} (hv : v ≤ 100) : gain v ≤ 1 := by
  have h1 : ((v:ℚ))/100 ≤ 1 := by
    rw [div_le_one (by norm_num)]
    exact_mod_cast hv
  calc gain v = fl32 ((v:ℚ)/100) := rfl
    _ ≤ fl32 (((1:ℤ) : ℚ)) := fl32_mono (by push_cast; linarith)
    _ = ((1:ℤ) : ℚ) := fl32_intCast (by norm_num)
    _ = 1 := by norm_num

theorem fl32_le_i16_hi {x : ℚ} (h : x ≤ 32767) : fl32 x ≤ 32767 := by
  calc fl32 x ≤ fl32 (((32767:ℤ) : ℚ)) := fl32_mono (by push_cast; linarith)
    _ = ((32767:ℤ) : ℚ) := fl32_intCast (by norm_num)
    _ = 32767 := by norm_num

theorem i16_lo_le_fl32 {x : ℚ} (h : -32768 ≤ x) : -32768 ≤ fl32 x := by
  calc (-32768 : ℚ) = (((-32768:ℤ)) : ℚ) := by norm_num
    _ = fl32 (((-32768:ℤ) : ℚ)) := (fl32_intCast (by norm_num)).symm
    _ ≤ fl32 x := fl32_mono (by push_cast; linarith)

/-- For samples in the `i16` range the intermediate `f32` product stays in
the `i16` range, so the saturating narrowing `as i16` never clamps. -/
theorem ratTrunc_fl32_prod_bounds {v : ℕ} {s : ℤ} (hv : v ≤ 100)
    (hs1 : -32768 ≤ s) (hs2 : s ≤ 32767) :
    -32768 ≤ ratTrunc (fl32 ((s : ℚ) * gain v)) ∧
      ratTrunc (fl32 ((s : ℚ) * gain v)) ≤ 32767 := by
  have hg0 : 0 ≤ gain v := gain_nonneg v
  have hg1 : gain v ≤ 1 := gain_le_one hv
  have hsq1 : (-32768 : ℚ) ≤ (s:ℚ) := by exact_mod_cast hs1
  have hsq2 : (s:ℚ) ≤ 32767 := by exact_mod_cast hs2
  have hub : (s : ℚ) * gain v ≤ 32767 := by nlinarith
  have hlb : (-32768 : ℚ) ≤ (s : ℚ) * gain v := by nlinarith
  constructor
  · calc (-32768 : ℤ) = ratTrunc (((-32768 : ℤ) : ℚ)) := (ratTrunc_intCast _).symm
      _ ≤ ratTrunc (fl32 ((s : ℚ) * gain v)) := by
          apply ratTrunc_mono
          push_cast
          exact i16_lo_le_fl32 hlb
  · calc ratTrunc (fl32 ((s : ℚ) * gain v)) ≤ ratTrunc (((32767 : ℤ) : ℚ)) := by
          apply ratTrunc_mono
          push_cast
          exact fl32_le_i16_hi hub
      _ = 32767 := ratTrunc_intCast _

/-- Error analysis for the gain stage: one sample through the `f32` pipeline
lands within one unit of the truncation of the exact product. -/
theorem amplifiedSample_close {v : ℕ} {s : ℤ} (hv : v ≤ 100)
    (hs1 : -32768 ≤ s) (hs2 : s ≤ 32767) :
    |amplifiedSample v s - ratTrunc ((s : ℚ) * (v : ℚ) / 100)| ≤ 1 := by
  have hg0 : 0 ≤ gain v := gain_nonneg v
  have hg1 : gain v ≤ 1 := gain_le_one hv
  have hvq : ((v:ℚ)) ≤ 100 := by exact_mod_cast hv
  have habs_s : |(s:ℚ)| ≤ 32768 := by
    have l1 : (-32768 : ℚ) ≤ (s:ℚ) := by exact_mod_cast hs1
    have l2 : (s:ℚ) ≤ 32767 := by exact_mod_cast hs2
    rw [abs_le]
    constructor <;> linarith
  have step1 : |gain v - (v:ℚ)/100| ≤ 1/16777216 := by
    calc |gain v - (v:ℚ)/100| = |fl32 ((v:ℚ)/100) - (v:ℚ)/100| := rfl
      _ ≤ |(v:ℚ)/100| / 16777216 := fl32_err _
      _ ≤ 1/16777216 := by
          rw [abs_of_nonneg (by positivity)]
          rw [div_le_div_iff (by norm_num) (by norm_num)]
          linarith
  have step2 : |(s:ℚ) * gain v - (s:ℚ) * (v:ℚ) / 100| ≤ 32768/16777216 := by
    have hkey : (s:ℚ) * gain v - (s:ℚ) * (v:ℚ) / 100 = (s:ℚ) * (gain v - (v:ℚ)/100) := by
      ring
    rw [hkey, abs_mul]
    calc |(s:ℚ)| * |gain v - (v:ℚ)/100| ≤ 32768 * (1/16777216) := by
          apply mul_le_mul habs_s step1 (abs_nonneg _) (by norm_num)
      _ = 32768/16777216 := by norm_num
  have step3 : |(s:ℚ) * gain v| ≤ 32768 := by
    rw [abs_mul]
    calc |(s:ℚ)| * |gain v| ≤ 32768 * 1 := by
          apply mul_le_mul habs_s _ (abs_nonneg _) (by norm_num)
          rw [abs_of_nonneg hg0]
          exact hg1
      _ = 32768 := by norm_num
  have step4 : |fl32 ((s:ℚ) * gain v) - (s:ℚ) * gain v| ≤ 32768/16777216 := by
    calc |fl32 ((s:ℚ) * gain v) - (s:ℚ) * gain v| ≤ |(s:ℚ) * gain v| / 16777216 := fl32_err _
      _ ≤ 32768/16777216 := by
          rw [div_le_div_iff (by norm_num) (by norm_num)]
          linarith
  have step5 : |fl32 ((s:ℚ) * gain v) - (s:ℚ) * (v:ℚ) / 100| ≤ 1 := by
    calc |fl32 ((s:ℚ) * gain v) - (s:ℚ) * (v:ℚ) / 100|
        = |(fl32 ((s:ℚ) * gain v) - (s:ℚ) * gain v) + ((s:ℚ) * gain v - (s:ℚ) * (v:ℚ) / 100)| := by
          ring_nf
      _ ≤ |fl32 ((s:ℚ) * gain v) - (s:ℚ) * gain v| + |(s:ℚ) * gain v - (s:ℚ) * (v:ℚ) / 100| :=
          abs_add _ _
      _ ≤ 1 := by linarith
  have step6 : |ratTrunc (fl32 ((s:ℚ) * gain v)) - ratTrunc ((s:ℚ) * (v:ℚ) / 100)| ≤ 1 :=
    abs_ratTrunc_sub_le step5
  have hb := ratTrunc_fl32_prod_bounds hv hs1 hs2
  unfold amplifiedSample
  rw [i16Clamp_eq_self hb.1 hb.2]
  exact step6

theorem gain_100 : gain 100 = 1 := by
  unfold gain
  rw [show ((100:ℕ):ℚ)/100 = ((1:ℤ):ℚ) by norm_num, fl32_intCast (by norm_num)]
  norm_num

theorem gain_0 : gain 0 = 0 := by
  unfold gain
  rw [show ((0:ℕ):ℚ)/100 = 0 by norm_num, fl32_zero]

theorem amplifiedSample_100 {s : ℤ} (hs1 : -32768 ≤ s) (hs2 : s ≤ 32767) :
    amplifiedSample 100 s = s := by
  unfold amplifiedSample
  rw [gain_100, mul_one, fl32_intCast (by rw [abs_lt]; omega), ratTrunc_intCast,
    i16Clamp_eq_self hs1 hs2]

theorem amplifiedSample_0 (s : ℤ) : amplifiedSample 0 s = 0 := by
  unfold amplifiedSample
  rw [gain_0, mul_zero, fl32_zero, show (0:ℚ) = ((0:ℤ):ℚ) by norm_num, ratTrunc_intCast]
  rfl

theorem abs_amplifiedSample_le {v : ℕ} {s : ℤ} (hv : v ≤ 100)
    (hs1 : -32768 ≤ s) (hs2 : s ≤ 32767) : |amplifiedSample v s| ≤ |s| := by
  have hg0 : 0 ≤ gain v := gain_nonneg v
  have hg1 : gain v ≤ 1 := gain_le_one hv
  have habs : |fl32 ((s:ℚ) * gain v)| ≤ |(s:ℚ)| := by
    rw [fl32_abs, abs_mul, abs_of_nonneg hg0]
    calc fl32 (|(s:ℚ)| * gain v) ≤ fl32 (|(s:ℚ)|) := by
          apply fl32_mono
          nlinarith [abs_nonneg ((s:ℚ))]
      _ = |(s:ℚ)| := by
          rw [← Int.cast_abs]
          exact fl32_intCast (by rw [abs_abs, abs_lt]; omega)
  have h2 : |(ratTrunc (fl32 ((s:ℚ) * gain v)) : ℚ)| ≤ |(s:ℚ)| :=
    (abs_ratTrunc_le _).trans habs
  have h3 : |ratTrunc (fl32 ((s:ℚ) * gain v))| ≤ |s| := by exact_mod_cast h2
  calc |amplifiedSample v s| ≤ |ratTrunc (fl32 ((s:ℚ) * gain v))| := abs_i16Clamp_le _
    _ ≤ |s| := h3

/-! ## Concrete evaluation helpers for the `f32` model -/

theorem roundNE_eq_of_lt_half {q : ℚ} {f : ℤ} (h1 : (f:ℚ) ≤ q) (h2 : q < f + 1)
    (h3 : q - f < 1/2) : roundNE q = f := by
  have hf : ⌊q⌋ = f := Int.floor_eq_iff.mpr ⟨h1, h2⟩
  unfold roundNE
  rw [hf, if_pos h3]

theorem fl32Pos_eval {q : ℚ} {e : ℤ} {r : ℤ} (h0 : 0 < q) (hlo : 2^e ≤ q)
    (hhi : q < 2^(e+1)) (hr : roundNE (q * 2 ^ ((23:ℤ) - e)) = r) :
    fl32Pos q = r * 2 ^ (e - 23) := by
  unfold fl32Pos
  rw [Int.log_eq_of_bounds h0 hlo hhi, hr]

theorem gain_13 : gain 13 = 1090519/8388608 := by
  unfold gain
  rw [fl32_of_pos (by norm_num)]
  rw [fl32Pos_eval (e := -3) (r := 8724152) (by norm_num) (by norm_num) (by norm_num)
    (roundNE_eq_of_lt_half (by norm_num) (by norm_num) (by norm_num))]
  norm_num

theorem amplifiedSample_13_m31500 : amplifiedSample 13 (-31500) = -4094 := by
  unfold amplifiedSample
  rw [gain_13]
  rw [show (((-31500 : ℤ)):ℚ) * (1090519/8388608) = -(8587837125/2097152) by norm_num]
  rw [fl32_of_neg (by norm_num), neg_neg]
  rw [fl32Pos_eval (e := 11) (r := 16773119) (by norm_num) (by norm_num) (by norm_num)
    (roundNE_eq_of_lt_half (by norm_num) (by norm_num) (by norm_num))]
  rw [show ((16773119 : ℤ) : ℚ) * 2 ^ ((11:ℤ) - 23) = 16773119/4096 by norm_num]
  rw [show ratTrunc (-(16773119/4096) : ℚ) = -4094 from ?_]
  · rfl
  · unfold ratTrunc
    rw [if_neg (by norm_num)]
    rw [Int.ceil_eq_iff]
    constructor <;> norm_num

/-! ## Volume handler (`src/audio.rs` lines 30-58)

`VOLUME` is an `AtomicU8` initialized to 50.  On a `Clockwise` event the
handler stores `(v + 5).min(100)`; on `CounterClockwise` it stores
`v.saturating_sub(5)`.  `u8` wrap-around of the unchecked `v + 5` is
modelled by the explicit `% 256`. -/

/-- Rotation direction events delivered on `ENCODER_CHANNEL`
(`src/encoder.rs`). -/
inductive EncoderDirection
  | Clockwise
  | CounterClockwise
deriving DecidableEq, Repr

/-- One `fetch_update` of the `VOLUME` atomic for one rotation event. -/
def volumeStep (v : ℕ) (d : EncoderDirection) : ℕ :=
  match d with
  | .Clockwise => min ((v + 5) % 256) 100
  | .CounterClockwise => v - 5

/-- The volume handler's effect of draining a queue of rotation events in
FIFO order, starting from volume `v`. -/
def volumeRun (v : ℕ) (evts : List EncoderDirection) : ℕ :=
  evts.foldl volumeStep v

theorem volumeStep_cw_no_wrap {v : ℕ} (hv : v ≤ 100) :
    volumeStep v .Clockwise = min (v + 5) 100 := by
  unfold volumeStep
  rw [Nat.mod_eq_of_lt (by omega)]

theorem volumeRun_cw {v : ℕ} (hv : v ≤ 100) :
    ∀ n : ℕ, volumeRun v (List.replicate n .Clockwise) = min 100 (v + 5 * n) := by
  intro n
  induction n generalizing v with
  | zero => simp [volumeRun, Nat.min_eq_right hv]
  | succ n ih =>
      rw [List.replicate_succ]
      have hstep : volumeRun v (.Clockwise :: List.replicate n .Clockwise)
          = volumeRun (min (v + 5) 100) (List.replicate n .Clockwise) := by
        unfold volumeRun
        rw [List.foldl_cons, volumeStep_cw_no_wrap hv]
      rw [hstep, ih (by omega)]
      omega

theorem volumeRun_ccw (v : ℕ) :
    ∀ n : ℕ, volumeRun v (List.replicate n .CounterClockwise) = v - 5 * n := by
  intro n
  induction n generalizing v with
  | zero => simp [volumeRun]
  | succ n ih =>
      rw [List.replicate_succ]
      have hstep : volumeRun v (.CounterClockwise :: List.replicate n .CounterClockwise)
          = volumeRun (v - 5) (List.replicate n .CounterClockwise) := by
        unfold volumeRun
        rw [List.foldl_cons]
        rfl
      rw [hstep, ih]
      omega

theorem volumeRun_invariant :
    ∀ (evts : List EncoderDirection) (v : ℕ), v ≤ 100 → 5 ∣ v →
      volumeRun v evts ≤ 100 ∧ 5 ∣ volumeRun v evts
  | [], v, h1, h2 => ⟨h1, h2⟩
  | d :: rest, v, h1, h2 => by
      have hstep : volumeStep v d ≤ 100 ∧ 5 ∣ volumeStep v d := by
        cases d with
        | Clockwise =>
            rw [volumeStep_cw_no_wrap h1]
            constructor
            · omega
            · rcases le_or_lt (v + 5) 100 with h | h
              · rw [Nat.min_eq_left h]
                omega
              · rw [Nat.min_eq_right (by omega)]
                omega
        | CounterClockwise =>
            rw [show volumeStep v .CounterClockwise = v - 5 from rfl]
            exact ⟨by omega, by omega⟩
      have := volumeRun_invariant rest (volumeStep v d) hstep.1 hstep.2
      unfold volumeRun at this ⊢
      rw [List.foldl_cons]
      exact this

/-! ## Track catalog

Modelled from the spec: the catalog type `Musics` used by `src/audio.rs`
(`Musics::from_index`, `next`, `prev`, `bytes`, `to_index`) is not among
the sources at hand; per the specification it is an ordered, fixed-size
catalog of N ≥ 1 tracks, each mapping to a static PCM byte slice, with
wrap-around `next`/`previous` (`(position ± 1) mod N`) and an
index lookup that falls back to the default track 0 for out-of-range
indices.  A catalog is represented by the list of its tracks' byte
buffers; a `Musics` value by the track's position. -/

/-- Modelled from the spec: `Musics::next`, wrap-around successor in the
catalog (`(position + 1) mod N`). -/
def musicsNext (cat : List (List ℕ)) (i : ℕ) : ℕ :=
  (i + 1) % cat.length

/-- Modelled from the spec: `Musics::prev`, wrap-around predecessor in the
catalog (`(position - 1) mod N`). -/
def musicsPrev (cat : List (List ℕ)) (i : ℕ) : ℕ :=
  (i + cat.length - 1) % cat.length

/-- Modelled from the spec: `Musics::bytes`, the track's static PCM byte
slice. -/
def musicsBytes (cat : List (List ℕ)) (i : ℕ) : List ℕ :=
  cat.getD i []

/-- Modelled from the spec: `Musics::from_index`, clamping out-of-range
indices to the default track 0. -/
def musicsFromIndex (cat : List (List ℕ)) (i : ℕ) : ℕ :=
  if i < cat.length then i else 0

/-! ## Audio feed engine (`src/audio.rs` lines 60-184)

The engine loop's per-cycle behavior, as a pure function.  Local loop
state (`current_music`, `audio_data`, `total_len`, `audio_offset`,
`is_playing`) and the atomics the engine publishes (`CURRENT_PERCENTAGE`,
`IS_PLAYING`, `CURRENT_MUSIC_INDEX`) form the `EngineState` record.  The
DMA transfer is abstracted by its `available()` result and by the list of
bytes passed to `push`; `VOLUME` is read once per fill as in the source;
the one-second log throttle (`last_log_time.elapsed() > 1s`) is an input
boolean. -/

structure EngineState where
  /-- Position of `current_music` in the catalog. -/
  currentMusic : ℕ
  /-- `audio_data`, the loaded track's byte slice. -/
  audioData : List ℕ
  /-- `total_len`, cached length of `audio_data`. -/
  totalLen : ℕ
  /-- `audio_offset`, the playback cursor. -/
  audioOffset : ℕ
  /-- Local `is_playing` flag. -/
  isPlaying : Bool
  /-- Published atomic `CURRENT_PERCENTAGE` (a `u8`). -/
  pubPercentage : ℕ
  /-- Published atomic `IS_PLAYING`. -/
  pubPlaying : Bool
  /-- Published atomic `CURRENT_MUSIC_INDEX`. -/
  pubMusicIndex : ℕ
deriving DecidableEq, Repr

/-- Pending one-shot transport signals at the start of a cycle:
`IS_PLAYING_SIGNAL.try_take()`, `NEXT.try_take()`, `PREVIOUS.try_take()`. -/
structure Signals where
  playPause : Bool
  next : Bool
  previous : Bool
deriving DecidableEq, Repr

/-- `load_track` (`src/audio.rs` lines 171-184): commit a track switch. -/
def load_track (cat : List (List ℕ)) (s : EngineState) (newMusic : ℕ) : EngineState :=
  { s with
    currentMusic := newMusic
    pubMusicIndex := newMusic
    audioData := musicsBytes cat newMusic
    totalLen := (musicsBytes cat newMusic).length
    audioOffset := 0
    pubPercentage := 0 }

/-- Control-signal intake (`src/audio.rs` lines 79-117): poll the three
signals in fixed order (play/pause, next, previous), then publish the
resulting `is_playing` flag. -/
def controlIntake (cat : List (List ℕ)) (s : EngineState) (sig : Signals) : EngineState :=
  let s1 := if sig.playPause then { s with isPlaying := !s.isPlaying } else s
  let s2 :=
    if sig.next then
      let s' := load_track cat s1 (musicsNext cat s1.currentMusic)
      { s' with isPlaying := true }
    else s1
  let s3 :=
    if sig.previous then
      let s' :=
        if (s2.audioOffset * 100) / s2.totalLen > 10 then
          { s2 with audioOffset := 0, pubPercentage := 0 }
        else
          load_track cat s2 (musicsPrev cat s2.currentMusic)
      { s' with isPlaying := true }
    else s2
  { s3 with pubPlaying := s3.isPlaying }

/-- Audio processing and DMA feed (`src/audio.rs` lines 119-166): silence
injection while paused, otherwise gain-scaled fill above the 1024-byte
high-water mark, throttled progress publication, and end-of-track reset.
Returns the new state and the bytes pushed to the DMA buffer. -/
def feedPhase (s : EngineState) (avail volume : ℕ) (logDue : Bool) :
    EngineState × List ℕ :=
  if s.isPlaying = false then
    (s, List.replicate (min avail 512) 0)
  else if 1024 < avail then
    let chunkSize := min (min 512 avail) (s.audioData.length - s.audioOffset)
    let audioChunk := (s.audioData.drop s.audioOffset).take chunkSize
    let amplified := gainChunkBytes volume audioChunk
    let s1 := { s with audioOffset := s.audioOffset + chunkSize }
    let s2 :=
      if logDue then { s1 with pubPercentage := (s1.audioOffset * 100) / s1.totalLen % 256 }
      else s1
    let s3 :=
      if s2.audioData.length ≤ s2.audioOffset then
        { s2 with audioOffset := 0, isPlaying := false, pubPlaying := false, pubPercentage := 0 }
      else s2
    (s3, amplified)
  else (s, [])

/-- One full cycle of the engine loop: control intake then feed. -/
def engineCycle (cat : List (List ℕ)) (s : EngineState) (sig : Signals)
    (avail volume : ℕ) (logDue : Bool) : EngineState × List ℕ :=
  feedPhase (controlIntake cat s sig) avail volume logDue

/-- State invariant of the engine loop: the loaded data and cached length
agree with the catalog, the cursor stays within the track, and the track
position is in range. -/
def EngineInv (cat : List (List ℕ)) (s : EngineState) : Prop :=
  s.currentMusic < cat.length
  ∧ s.audioData = musicsBytes cat s.currentMusic
  ∧ s.totalLen = s.audioData.length
  ∧ s.audioOffset ≤ s.totalLen

theorem load_track_inv {cat : List (List ℕ)} {s : EngineState} {m : ℕ}
    (hm : m < cat.length) : EngineInv cat (load_track cat s m) :=
  ⟨hm, rfl, rfl, Nat.zero_le _⟩

theorem controlIntake_inv {cat : List (List ℕ)} {s : EngineState} (sig : Signals)
    (h : EngineInv cat s) : EngineInv cat (controlIntake cat s sig) := by
  obtain ⟨h1, h2, h3, h4⟩ := h
  have hlen : 0 < cat.length := by omega
  simp only [controlIntake, load_track, musicsNext, musicsPrev]
  split_ifs <;>
    refine ⟨?_, ?_, ?_, ?_⟩ <;>
      first
        | exact h1
        | exact h2
        | exact h3
        | exact h4
        | rfl
        | exact Nat.zero_le _
        | exact Nat.mod_lt _ hlen

theorem feedPhase_inv {cat : List (List ℕ)} {s : EngineState} (h : EngineInv cat s)
    (avail vol : ℕ) (logDue : Bool) :
    EngineInv cat (feedPhase s avail vol logDue).1 := by
  obtain ⟨h1, h2, h3, h4⟩ := h
  simp only [feedPhase]
  split_ifs <;>
    refine ⟨?_, ?_, ?_, ?_⟩ <;>
      dsimp only <;>
      first
        | exact h1
        | exact h2
        | exact h3
        | exact h4
        | rfl
        | exact Nat.zero_le _
        | omega

theorem engineCycle_inv {cat : List (List ℕ)} {s : EngineState} (sig : Signals)
    (h : EngineInv cat s) (avail vol : ℕ) (logDue : Bool) :
    EngineInv cat (engineCycle cat s sig avail vol logDue).1 :=
  feedPhase_inv (controlIntake_inv sig h) avail vol logDue

theorem totalLen_pos {cat : List (List ℕ)} {s : EngineState}
    (hne : ∀ t ∈ cat, t ≠ []) (h : EngineInv cat s) : 0 < s.totalLen := by
  obtain ⟨h1, h2, h3, h4⟩ := h
  rw [h3, h2]
  apply List.length_pos.mpr
  apply hne
  unfold musicsBytes
  rw [List.getD_eq_getElem _ _ h1]
  exact List.getElem_mem h1

theorem percent_le_100 {x total : ℕ} (hx : x ≤ total) (ht : 0 < total) :
    x * 100 / total ≤ 100 :=
  calc x * 100 / total ≤ total * 100 / total := Nat.div_le_div_right (by omega)
    _ = 100 := Nat.mul_div_cancel_left 100 ht

theorem feedPhase_paused {s : EngineState} {avail vol : ℕ} {logDue : Bool}
    (hp : s.isPlaying = false) :
    feedPhase s avail vol logDue = (s, List.replicate (min avail 512) 0) := by
  unfold feedPhase
  rw [if_pos hp]

/-! ## Claim theorems -/

/-- Claim C1: when a `Previous` signal is pending at the start of a cycle,
the engine restarts the current track (cursor offset 0, progress percent 0,
track, data, length and published index unchanged) exactly when
`(offset * 100) / total_len > 10` under integer division, and otherwise
(including a quotient of exactly 10) switches to the catalog's previous
track with cursor and progress reset; the boundary is exclusive on the
restart branch for every offset and non-zero total length. -/
theorem C1_previous_threshold (cat : List (List ℕ)) (s : EngineState) (pp : Bool)
    (htot : s.totalLen ≠ 0) :
    (s.audioOffset * 100 / s.totalLen > 10 →
      (controlIntake cat s ⟨pp, false, true⟩).currentMusic = s.currentMusic
      ∧ (controlIntake cat s ⟨pp, false, true⟩).audioData = s.audioData
      ∧ (controlIntake cat s ⟨pp, false, true⟩).totalLen = s.totalLen
      ∧ (controlIntake cat s ⟨pp, false, true⟩).pubMusicIndex = s.pubMusicIndex
      ∧ (controlIntake cat s ⟨pp, false, true⟩).audioOffset = 0
      ∧ (controlIntake cat s ⟨pp, false, true⟩).pubPercentage = 0)
    ∧ (s.audioOffset * 100 / s.totalLen ≤ 10 →
      (controlIntake cat s ⟨pp, false, true⟩).currentMusic = musicsPrev cat s.currentMusic
      ∧ (controlIntake cat s ⟨pp, false, true⟩).pubMusicIndex = musicsPrev cat s.currentMusic
      ∧ (controlIntake cat s ⟨pp, false, true⟩).audioOffset = 0
      ∧ (controlIntake cat s ⟨pp, false, true⟩).pubPercentage = 0) := by
  constructor
  · intro h
    cases pp <;> simp [controlIntake, load_track, h]
  · intro h
    have h' : ¬ (10 < s.audioOffset * 100 / s.totalLen) := by omega
    cases pp <;> simp [controlIntake, load_track, h']

/-- Claim C2 counterexample: with track 0 of length 10 played to offset 5
(50% > 10%), a pending `Previous` signal takes the same-track restart
branch (track unchanged, offset reset) yet flips the engine from paused to
playing: `is_playing = true` is assigned on both branches of the `Previous`
handler (src/audio.rs line 114 sits outside the if/else), so a same-track
restart does not preserve the prior play/pause state. -/
theorem C2_counterexample :
    (10:ℕ) < 5 * 100 / 10
    ∧ (controlIntake [[7, 7, 7, 7, 7, 7, 7, 7, 7, 7]]
        { currentMusic := 0, audioData := [7, 7, 7, 7, 7, 7, 7, 7, 7, 7], totalLen := 10,
          audioOffset := 5, isPlaying := false, pubPercentage := 50, pubPlaying := false,
          pubMusicIndex := 0 }
        ⟨false, false, true⟩).currentMusic = 0
    ∧ (controlIntake [[7, 7, 7, 7, 7, 7, 7, 7, 7, 7]]
        { currentMusic := 0, audioData := [7, 7, 7, 7, 7, 7, 7, 7, 7, 7], totalLen := 10,
          audioOffset := 5, isPlaying := false, pubPercentage := 50, pubPlaying := false,
          pubMusicIndex := 0 }
        ⟨false, false, true⟩).audioOffset = 0
    ∧ (controlIntake [[7, 7, 7, 7, 7, 7, 7, 7, 7, 7]]
        { currentMusic := 0, audioData := [7, 7, 7, 7, 7, 7, 7, 7, 7, 7], totalLen := 10,
          audioOffset := 5, isPlaying := false, pubPercentage := 50, pubPlaying := false,
          pubMusicIndex := 0 }
        ⟨false, false, true⟩).isPlaying = true
    ∧ (controlIntake [[7, 7, 7, 7, 7, 7, 7, 7, 7, 7]]
        { currentMusic := 0, audioData := [7, 7, 7, 7, 7, 7, 7, 7, 7, 7], totalLen := 10,
          audioOffset := 5, isPlaying := false, pubPercentage := 50, pubPlaying := false,
          pubMusicIndex := 0 }
        ⟨false, false, true⟩).pubPlaying = true := by
  decide

/-- Claim C2 as amended: a `Previous` signal always forces the `Playing`
state (and publishes `playing = true`), in the same-track-restart branch
just as in the track-switch branch; the prior play/pause state is not
preserved by a same-track restart. -/
theorem C2_previous_always_plays (cat : List (List ℕ)) (s : EngineState) (pp nx : Bool) :
    (controlIntake cat s ⟨pp, nx, true⟩).isPlaying = true
    ∧ (controlIntake cat s ⟨pp, nx, true⟩).pubPlaying = true :=
  ⟨rfl, rfl⟩

/-- Claim C3: in a cycle with no pending signals in which the fill step
advances the cursor to the end of the track (the remaining bytes fit below
the 512-byte chunk bound and the DMA has room above the high-water mark),
the engine resets the offset to 0, leaves `Playing`, publishes
`playing = false` and `progress_percent = 0`, and keeps the current track
and published track index unchanged. -/
theorem C3_end_of_track (cat : List (List ℕ)) (s : EngineState) (avail vol : ℕ)
    (logDue : Bool) (hpl : s.isPlaying = true) (hav : 1024 < avail)
    (hrem : s.audioData.length - s.audioOffset ≤ 512) :
    (engineCycle cat s ⟨false, false, false⟩ avail vol logDue).1.audioOffset = 0
    ∧ (engineCycle cat s ⟨false, false, false⟩ avail vol logDue).1.isPlaying = false
    ∧ (engineCycle cat s ⟨false, false, false⟩ avail vol logDue).1.pubPlaying = false
    ∧ (engineCycle cat s ⟨false, false, false⟩ avail vol logDue).1.pubPercentage = 0
    ∧ (engineCycle cat s ⟨false, false, false⟩ avail vol logDue).1.currentMusic
        = s.currentMusic
    ∧ (engineCycle cat s ⟨false, false, false⟩ avail vol logDue).1.pubMusicIndex
        = s.pubMusicIndex := by
  have hint : controlIntake cat s ⟨false, false, false⟩ = { s with pubPlaying := s.isPlaying } := by
    simp [controlIntake]
  unfold engineCycle
  rw [hint]
  unfold feedPhase
  rw [if_neg (by simp [hpl]), if_pos hav]
  have heof : ∀ t : EngineState, t.audioData = s.audioData →
      t.audioOffset = s.audioOffset + min (min 512 avail) (s.audioData.length - s.audioOffset) →
      t.audioData.length ≤ t.audioOffset := by
    intro t h1 h2
    rw [h1, h2]
    omega
  dsimp only
  split_ifs with h1 h2 h3 <;> simp_all <;> omega

/-- Claim C4: a pending `Next` signal switches to the catalog's next track,
resets the cursor to 0, publishes progress 0 and the new track index, and
forces `Playing` (publishing `playing = true`), regardless of the prior
play/pause state. -/
theorem C4_next_switch (cat : List (List ℕ)) (s : EngineState) (pp : Bool) :
    (controlIntake cat s ⟨pp, true, false⟩).currentMusic = musicsNext cat s.currentMusic
    ∧ (controlIntake cat s ⟨pp, true, false⟩).pubMusicIndex = musicsNext cat s.currentMusic
    ∧ (controlIntake cat s ⟨pp, true, false⟩).audioOffset = 0
    ∧ (controlIntake cat s ⟨pp, true, false⟩).pubPercentage = 0
    ∧ (controlIntake cat s ⟨pp, true, false⟩).isPlaying = true
    ∧ (controlIntake cat s ⟨pp, true, false⟩).pubPlaying = true := by
  cases pp <;> simp [controlIntake, load_track]

/-- Claim C5: from any volume `v ≤ 100`, `N` clockwise events yield
`min(100, v + 5N)` and `N` counter-clockwise events yield
`max(0, v - 5N)`: a fixed step of 5 per event, saturating at the `[0,100]`
boundaries. -/
theorem C5_volume_saturation (v : ℕ) (hv : v ≤ 100) (n : ℕ) :
    volumeRun v (List.replicate n .Clockwise) = min 100 (v + 5 * n)
    ∧ (volumeRun v (List.replicate n .CounterClockwise) : ℤ) = max 0 ((v:ℤ) - 5 * n) := by
  refine ⟨volumeRun_cw hv n, ?_⟩
  rw [volumeRun_ccw]
  omega

/-- Claim C6 counterexample: at volume 13 and input sample -31500 the
exact product `-31500 * 13 / 100` is the integer -4095 (so every rounding
convention yields -4095), but the gain stage outputs -4094: the `f32`
gain `fl32(13/100)` is slightly below 13/100, the `f32` product lands just
above -4095, and truncation toward zero loses one unit.  The output is
therefore not `round(input * volume / 100)`. -/
theorem C6_counterexample :
    amplifiedSample 13 (-31500) = -4094
    ∧ ((-31500 : ℚ)) * ((13:ℕ) : ℚ) / 100 = ((-4095 : ℤ) : ℚ)
    ∧ roundNE (((-31500 : ℚ)) * ((13:ℕ) : ℚ) / 100) = -4095
    ∧ ratTrunc (((-31500 : ℚ)) * ((13:ℕ) : ℚ) / 100) = -4095
    ∧ amplifiedSample 13 (-31500) ≠ -4095 := by
  have hx : ((-31500 : ℚ)) * ((13:ℕ) : ℚ) / 100 = ((-4095 : ℤ) : ℚ) := by norm_num
  refine ⟨amplifiedSample_13_m31500, hx, ?_, ?_, ?_⟩
  · rw [hx, roundNE_intCast]
  · rw [hx, ratTrunc_intCast]
  · rw [amplifiedSample_13_m31500]
    decide

/-- Claim C6 as amended: for every volume in `[0,100]` and every sample in
the `i16` range, the gain stage computes the product in `f32` (a wider
type, in which the multiplication cannot overflow), narrows it by
truncation toward zero, and the result is within one unit of the
truncation of the exact product `sample * volume / 100`; the output chunk
always has exactly as many bytes (hence samples) as the input chunk. -/
theorem C6_gain_rounding :
    (∀ (v : ℕ) (s : ℤ), v ≤ 100 → -32768 ≤ s → s ≤ 32767 →
      |amplifiedSample v s - ratTrunc ((s : ℚ) * (v : ℚ) / 100)| ≤ 1)
    ∧ ∀ (v : ℕ) (chunk : List ℕ), (gainChunkBytes v chunk).length = chunk.length :=
  ⟨fun _ _ hv h1 h2 => amplifiedSample_close hv h1 h2,
    fun v chunk => gainChunkBytes_length v chunk⟩

/-- Claim C6 witness: the amended bound applied at volume 40, sample 1000,
and sample-count preservation on a 4-byte chunk. -/
theorem C6_gain_rounding_witness :
    |amplifiedSample 40 1000 - ratTrunc ((1000 : ℚ) * ((40:ℕ) : ℚ) / 100)| ≤ 1
    ∧ (gainChunkBytes 40 [1, 2, 3, 4]).length = 4 :=
  ⟨C6_gain_rounding.1 40 1000 (by norm_num) (by norm_num) (by norm_num),
    C6_gain_rounding.2 40 [1, 2, 3, 4]⟩

/-- Claim C7: the gain stage is the identity at volume 100, constantly
zero at volume 0, and never amplifies: for every volume in `[0,100]` the
output magnitude is at most the input magnitude. -/
theorem C7_gain_identity_zero_bounded :
    (∀ s : ℤ, -32768 ≤ s → s ≤ 32767 → amplifiedSample 100 s = s)
    ∧ (∀ s : ℤ, amplifiedSample 0 s = 0)
    ∧ (∀ (v : ℕ) (s : ℤ), v ≤ 100 → -32768 ≤ s → s ≤ 32767 →
        |amplifiedSample v s| ≤ |s|) :=
  ⟨fun _ h1 h2 => amplifiedSample_100 h1 h2,
    amplifiedSample_0,
    fun _ _ hv h1 h2 => abs_amplifiedSample_le hv h1 h2⟩

/-- Claim C7 witness: identity at volume 100 on sample 1234, zero output at
volume 0 on sample 77, and the no-amplification bound at volume 13 on
sample -31500. -/
theorem C7_gain_identity_zero_bounded_witness :
    amplifiedSample 100 1234 = 1234
    ∧ amplifiedSample 0 77 = 0
    ∧ |amplifiedSample 13 (-31500)| ≤ |(-31500 : ℤ)| :=
  ⟨C7_gain_identity_zero_bounded.1 1234 (by norm_num) (by norm_num),
    C7_gain_identity_zero_bounded.2.1 77,
    C7_gain_identity_zero_bounded.2.2 13 (-31500) (by norm_num) (by norm_num) (by norm_num)⟩

/-- Claim C8: in a cycle that ends control intake paused, the engine pushes
exactly `min(avail, 512)` zero bytes — never more than the available space
and never more than 512 — and leaves the cursor offset, current track,
track data and length, published track index and published progress
unchanged from the start of the cycle. -/
theorem C8_paused_silence (cat : List (List ℕ)) (s : EngineState) (sig : Signals)
    (avail vol : ℕ) (logDue : Bool)
    (hp : (controlIntake cat s sig).isPlaying = false) :
    (engineCycle cat s sig avail vol logDue).2 = List.replicate (min avail 512) 0
    ∧ (engineCycle cat s sig avail vol logDue).2.length ≤ avail
    ∧ (engineCycle cat s sig avail vol logDue).2.length ≤ 512
    ∧ (engineCycle cat s sig avail vol logDue).1.audioOffset = s.audioOffset
    ∧ (engineCycle cat s sig avail vol logDue).1.currentMusic = s.currentMusic
    ∧ (engineCycle cat s sig avail vol logDue).1.audioData = s.audioData
    ∧ (engineCycle cat s sig avail vol logDue).1.totalLen = s.totalLen
    ∧ (engineCycle cat s sig avail vol logDue).1.pubMusicIndex = s.pubMusicIndex
    ∧ (engineCycle cat s sig avail vol logDue).1.pubPercentage = s.pubPercentage := by
  have hcyc : engineCycle cat s sig avail vol logDue
      = (controlIntake cat s sig, List.replicate (min avail 512) 0) := by
    unfold engineCycle
    exact feedPhase_paused hp
  rw [hcyc]
  obtain ⟨pp, nx, pv⟩ := sig
  cases nx <;> cases pv
  · cases pp <;> simp [controlIntake]
  · exfalso
    simp [controlIntake] at hp
  · exfalso
    simp [controlIntake] at hp
  · exfalso
    simp [controlIntake] at hp

/-- Claim C9: with every track non-empty and the engine invariant holding,
the two divisors by `total_len` (the `Previous` 10% threshold and the
progress percentage) are non-zero both before and after control intake,
the percentage `(offset * 100) / total_len` lies in `[0,100]` (hence fits
a `u8`), and a full engine cycle preserves the invariant. -/
theorem C9_division_safety (cat : List (List ℕ)) (hne : ∀ t ∈ cat, t ≠ [])
    (s : EngineState) (h : EngineInv cat s) (sig : Signals) (avail vol : ℕ)
    (logDue : Bool) :
    s.totalLen ≠ 0
    ∧ (controlIntake cat s sig).totalLen ≠ 0
    ∧ s.audioOffset * 100 / s.totalLen ≤ 100
    ∧ (controlIntake cat s sig).audioOffset * 100 / (controlIntake cat s sig).totalLen ≤ 100
    ∧ EngineInv cat (engineCycle cat s sig avail vol logDue).1 := by
  have h0 := totalLen_pos hne h
  have hI := controlIntake_inv sig h
  have h0' := totalLen_pos hne hI
  refine ⟨by omega, by omega, ?_, ?_, engineCycle_inv sig h avail vol logDue⟩
  · exact percent_le_100 h.2.2.2 h0
  · exact percent_le_100 hI.2.2.2 h0'

/-- Claim C10: starting from the initial volume 50, any sequence of
rotation events leaves the volume a multiple of 5 within `[0,100]`, and
the unchecked `u8` addition `v + 5` of the clockwise branch cannot
overflow (the modelled wrap `% 256` never engages). -/
theorem C10_volume_range_invariant (evts : List EncoderDirection) :
    volumeRun 50 evts ≤ 100
    ∧ 5 ∣ volumeRun 50 evts
    ∧ (volumeRun 50 evts + 5) % 256 = volumeRun 50 evts + 5 := by
  have h := volumeRun_invariant evts 50 (by norm_num) (by norm_num)
  refine ⟨h.1, h.2, ?_⟩
  have := h.1
  omega

/-! ## Concrete fixtures for witnesses -/

/-- A two-track catalog: track 0 has 10 bytes, track 1 has 4 bytes. -/
def catW : List (List ℕ) := [[0, 0, 0, 0, 0, 0, 0, 0, 0, 0], [1, 1, 1, 1]]

/-- Engine state on track 0 of `catW`, 5 of 10 bytes played (50%),
playing. -/
def engW : EngineState :=
  { currentMusic := 0, audioData := [0, 0, 0, 0, 0, 0, 0, 0, 0, 0], totalLen := 10,
    audioOffset := 5, isPlaying := true, pubPercentage := 50, pubPlaying := true,
    pubMusicIndex := 0 }

/-- Engine state on track 0 of `catW`, 8 of 10 bytes played, playing:
the next fill reaches the end of the track. -/
def engEof : EngineState :=
  { currentMusic := 0, audioData := [0, 0, 0, 0, 0, 0, 0, 0, 0, 0], totalLen := 10,
    audioOffset := 8, isPlaying := true, pubPercentage := 80, pubPlaying := true,
    pubMusicIndex := 0 }

/-- Engine state on track 0 of `catW`, paused. -/
def engP : EngineState :=
  { currentMusic := 0, audioData := [0, 0, 0, 0, 0, 0, 0, 0, 0, 0], totalLen := 10,
    audioOffset := 5, isPlaying := false, pubPercentage := 50, pubPlaying := false,
    pubMusicIndex := 0 }

/-- Claim C1 witness: at 50% played (5 of 10 bytes, above the 10%
threshold), a pending `Previous` restarts the current track. -/
theorem C1_previous_threshold_witness :
    (controlIntake catW engW ⟨false, false, true⟩).currentMusic = engW.currentMusic
    ∧ (controlIntake catW engW ⟨false, false, true⟩).audioData = engW.audioData
    ∧ (controlIntake catW engW ⟨false, false, true⟩).totalLen = engW.totalLen
    ∧ (controlIntake catW engW ⟨false, false, true⟩).pubMusicIndex = engW.pubMusicIndex
    ∧ (controlIntake catW engW ⟨false, false, true⟩).audioOffset = 0
    ∧ (controlIntake catW engW ⟨false, false, true⟩).pubPercentage = 0 :=
  (C1_previous_threshold catW engW false (by decide)).1 (by decide)

/-- Claim C3 witness: with 2 bytes remaining, 2000 bytes of DMA space and
the log throttle due, the cycle ends the track: offset 0, paused,
`playing = false`, progress 0, track and index unchanged. -/
theorem C3_end_of_track_witness :
    (engineCycle catW engEof ⟨false, false, false⟩ 2000 50 true).1.audioOffset = 0
    ∧ (engineCycle catW engEof ⟨false, false, false⟩ 2000 50 true).1.isPlaying = false
    ∧ (engineCycle catW engEof ⟨false, false, false⟩ 2000 50 true).1.pubPlaying = false
    ∧ (engineCycle catW engEof ⟨false, false, false⟩ 2000 50 true).1.pubPercentage = 0
    ∧ (engineCycle catW engEof ⟨false, false, false⟩ 2000 50 true).1.currentMusic
        = engEof.currentMusic
    ∧ (engineCycle catW engEof ⟨false, false, false⟩ 2000 50 true).1.pubMusicIndex
        = engEof.pubMusicIndex :=
  C3_end_of_track catW engEof 2000 50 true (by decide) (by decide) (by decide)

/-- Claim C5 witness: from volume 50, three clockwise events reach 65 and
three counter-clockwise events reach 35, matching the saturation law. -/
theorem C5_volume_saturation_witness :
    volumeRun 50 (List.replicate 3 .Clockwise) = min 100 (50 + 5 * 3)
    ∧ (volumeRun 50 (List.replicate 3 .CounterClockwise) : ℤ)
        = max 0 (((50:ℕ):ℤ) - 5 * 3) :=
  C5_volume_saturation 50 (by norm_num) 3

/-- Claim C8 witness: paused with 300 bytes of DMA space, the cycle pushes
min(300, 512) = 300 zero bytes and changes no track or progress state. -/
theorem C8_paused_silence_witness :
    (engineCycle catW engP ⟨false, false, false⟩ 300 50 false).2
        = List.replicate (min 300 512) 0
    ∧ (engineCycle catW engP ⟨false, false, false⟩ 300 50 false).2.length ≤ 300
    ∧ (engineCycle catW engP ⟨false, false, false⟩ 300 50 false).2.length ≤ 512
    ∧ (engineCycle catW engP ⟨false, false, false⟩ 300 50 false).1.audioOffset
        = engP.audioOffset
    ∧ (engineCycle catW engP ⟨false, false, false⟩ 300 50 false).1.currentMusic
        = engP.currentMusic
    ∧ (engineCycle catW engP ⟨false, false, false⟩ 300 50 false).1.audioData = engP.audioData
    ∧ (engineCycle catW engP ⟨false, false, false⟩ 300 50 false).1.totalLen = engP.totalLen
    ∧ (engineCycle catW engP ⟨false, false, false⟩ 300 50 false).1.pubMusicIndex
        = engP.pubMusicIndex
    ∧ (engineCycle catW engP ⟨false, false, false⟩ 300 50 false).1.pubPercentage
        = engP.pubPercentage :=
  C8_paused_silence catW engP ⟨false, false, false⟩ 300 50 false (by decide)

/-- Claim C9 witness: on the concrete catalog `catW` (all tracks
non-empty) and state `engW`, both divisors are non-zero, the percentages
are within `[0,100]`, and the invariant survives a full cycle. -/
theorem C9_division_safety_witness :
    engW.totalLen ≠ 0
    ∧ (controlIntake catW engW ⟨false, false, false⟩).totalLen ≠ 0
    ∧ engW.audioOffset * 100 / engW.totalLen ≤ 100
    ∧ (controlIntake catW engW ⟨false, false, false⟩).audioOffset * 100
        / (controlIntake catW engW ⟨false, false, false⟩).totalLen ≤ 100
    ∧ EngineInv catW (engineCycle catW engW ⟨false, false, false⟩ 2000 50 false).1 :=
  C9_division_safety catW (by decide) engW ⟨by decide, rfl, rfl, by decide⟩
    ⟨false, false, false⟩ 2000 50 false
